import Mathlib

/-!
# Verification of the recipients truncation-fitting engine

Shallow embedding of the `useRecipientsCalculation` hook and its
`useTextMeasurement` collaborator. The DOM-dependent pieces are made
explicit parameters: `containerAttached` stands for
`containerRef.current` being non-null, `clientWidth` for
`container.clientWidth`, and a `MeasureEnv` record stands for the pair
of measurement calls (`getComputedFont`, `measureTextWidth`), each of
which may raise (modelled with `Except Unit`). Pixel widths are
integers; the engine only compares them with `≤` and `<`.
-/

namespace RecipientsFit

/-! ## Parsing and validation (the `emails` memo) -/

/-- The character class `[^\s@]` of the validation regex: not a
whitespace character and not an at sign. -/
def okChar (c : Char) : Bool := !c.isWhitespace && c != '@'

/-- After the at sign, the regex demands `[^\s@]+\.[^\s@]+`: over a
string of `okChar` characters this holds exactly when some dot sits at
neither the first nor the last position. -/
def hasInnerDot (d : List Char) : Bool := ((d.drop 1).dropLast).contains '.'

/-- Full-string match of `/^[^\s@]+@[^\s@]+\.[^\s@]+$/`: the class
excludes `@`, so the local part is forced to be the maximal `okChar`
run, the next character must be `@`, and the rest must be `okChar`
characters containing an inner dot. -/
def matchEmail (cs : List Char) : Bool :=
  match cs.dropWhile okChar with
  | '@' :: domain =>
      !(cs.takeWhile okChar).isEmpty && domain.all okChar && hasInnerDot domain
  | _ => false

/-- The filter predicate of the `emails` memo: non-empty, at most 254
characters, and matching the email regex. -/
def validEmail (email : String) : Bool :=
  email.length > 0 && email.length ≤ 254 && matchEmail email.data

/-- `recipients.split(',')` on the character list: split at every
comma; splitting the empty list yields one empty token. -/
def splitOnComma : List Char → List (List Char)
  | [] => [[]]
  | c :: rest =>
      if c = ',' then [] :: splitOnComma rest
      else
        match splitOnComma rest with
        | [] => [[c]]
        | t :: ts => (c :: t) :: ts

/-- `email.trim()`: drop whitespace from both ends. -/
def jsTrim (cs : List Char) : List Char :=
  ((cs.dropWhile Char.isWhitespace).reverse.dropWhile Char.isWhitespace).reverse

/-- The `emails` memo: split the raw string on commas, trim each token,
keep the valid ones. A falsy (empty) raw string yields `[]`. -/
def parseEmails (recipients : String) : List String :=
  if recipients = "" then []
  else
    (((splitOnComma recipients.data).map (fun e => String.mk (jsTrim e)))).filter validEmail

/-! ## Measurement service and configuration -/

/-- The two calls the engine makes inside its `try` block. Either may
raise, which `Except Unit` records. `measureTextWidth` takes the text
and the font descriptor, in source order. -/
structure MeasureEnv where
  getComputedFont : Except Unit String
  measureTextWidth : String → String → Except Unit ℤ

/-- A measurement environment in which nothing raises: the font lookup
returns `font` and measurement applies the pure width function `m`. -/
def pureEnv (font : String) (m : String → ℤ) : MeasureEnv :=
  ⟨.ok font, fun text _ => .ok (m text)⟩

/-- `RecipientsCalculationConfig` with the hook's destructuring already
applied: `maxWidth` stays optional, the other fields hold their
defaults when absent (`",..."`, `true`, `50`). -/
structure RecipientsCalculationConfig where
  maxWidth : Option ℤ
  ellipsisSuffix : String
  allowOverflow : Bool
  minWidth : ℤ
deriving DecidableEq

/-- The state the hook publishes after one evaluation
(`visibleList`, `hiddenCount`, `isReady`). -/
structure FitState where
  visibleList : List String
  hiddenCount : ℕ
  isReady : Bool
deriving DecidableEq, Repr

/-- `RecipientsCalculationResult`: the record the hook returns. -/
structure RecipientsCalculationResult where
  visibleList : List String
  hiddenCount : ℕ
  displayText : String
  isReady : Bool
deriving DecidableEq, Repr

/-! ## The fitting loop -/

/-- `proposedVisible.join(', ')`. -/
def joinComma (l : List String) : String := String.intercalate ", " l

/-- The `for` loop of `computeVisibleRecipients`: `visible` is the
accumulator, the second list the items not yet tried. Each iteration
measures the trial text and either accepts the item or stops. A raised
measurement propagates out of the loop (to the `catch`). -/
def fitLoopE (env : MeasureEnv) (font : String) (availableWidth : ℤ)
    (ellipsisSuffix : String) (allowOverflow : Bool) (total : ℕ)
    (visible : List String) : List String → Except Unit (List String)
  | [] => .ok visible
  | e :: rest =>
      let proposedVisible := visible ++ [e]
      let remaining := total - proposedVisible.length
      let visibleText := joinComma proposedVisible
      let suffix := if remaining > 0 then ellipsisSuffix else ""
      let totalText := visibleText ++ suffix
      match env.measureTextWidth totalText font with
      | .error err => .error err
      | .ok width =>
          if width ≤ availableWidth ∨ (visible.length = 0 ∧ allowOverflow) then
            fitLoopE env font availableWidth ellipsisSuffix allowOverflow total
              (visible ++ [e]) rest
          else
            .ok visible

/-- `maxWidth || container.clientWidth`: a zero (falsy) override falls
back to the container's measured width. -/
def effectiveWidth (maxWidth : Option ℤ) (clientWidth : ℤ) : ℤ :=
  match maxWidth with
  | some w => if w = 0 then clientWidth else w
  | none => clientWidth

/-- The body of the `try` block: one font lookup, then the loop started
with an empty accumulator over the whole item list. -/
def measurementPass (env : MeasureEnv) (availableWidth : ℤ)
    (ellipsisSuffix : String) (allowOverflow : Bool)
    (emails : List String) : Except Unit (List String) :=
  match env.getComputedFont with
  | .error err => .error err
  | .ok font =>
      fitLoopE env font availableWidth ellipsisSuffix allowOverflow
        emails.length [] emails

/-- `computeVisibleRecipients`: degenerate guards first, then the
minimum-width check, then the measured greedy pass with its
fail-open `catch`. -/
def computeVisibleRecipients (emails : List String)
    (containerAttached : Bool) (clientWidth : ℤ)
    (cfg : RecipientsCalculationConfig) (env : MeasureEnv) : FitState :=
  if ¬containerAttached ∨ emails = [] then
    ⟨[], emails.length, true⟩
  else
    let availableWidth := effectiveWidth cfg.maxWidth clientWidth
    if availableWidth < cfg.minWidth then
      ⟨[], emails.length, true⟩
    else
      match measurementPass env availableWidth cfg.ellipsisSuffix
          cfg.allowOverflow emails with
      | .ok visible => ⟨visible, emails.length - visible.length, true⟩
      | .error _ => ⟨emails, 0, true⟩

/-- The `displayText` memo: empty until ready, otherwise the joined
visible list with the ellipsis suffix appended when anything is
hidden. -/
def displayText (st : FitState) (ellipsisSuffix : String) : String :=
  if st.isReady = false then ""
  else
    let visibleText := joinComma st.visibleList
    if st.hiddenCount > 0 then visibleText ++ ellipsisSuffix
    else visibleText

/-- The hook, one settled evaluation end to end: parse, compute, and
assemble the published result record. -/
def useRecipientsCalculation (recipients : String)
    (containerAttached : Bool) (clientWidth : ℤ)
    (cfg : RecipientsCalculationConfig) (env : MeasureEnv) :
    RecipientsCalculationResult :=
  let emails := parseEmails recipients
  let st := computeVisibleRecipients emails containerAttached clientWidth cfg env
  ⟨st.visibleList, st.hiddenCount, displayText st cfg.ellipsisSuffix, st.isReady⟩

/-! ## The spec's description of the greedy pass

These definitions follow the specification's wording for step 3 of the
algorithm, to be compared with the loop embedded above: trial text for
the candidate at position `k`, the acceptance test, and the number of
items the described greedy process keeps. -/

/-- The spec's trial text for candidate `k`: the trial prefix joined
with `", "`, with the suffix marker appended exactly when items remain
after the trial prefix. -/
def specTrialText (emails : List String) (suffixMarker : String) (k : ℕ) : String :=
  joinComma (emails.take (k + 1)) ++
    (if emails.length - (k + 1) > 0 then suffixMarker else "")

/-- The spec's acceptance test for candidate `k`: measured trial width
within budget, or the visible list is still empty (`k = 0`) and a
single overflowing item is allowed. -/
def specAccept (m : String → ℤ) (availableWidth : ℤ) (suffixMarker : String)
    (allowSingleOverflow : Bool) (emails : List String) (k : ℕ) : Bool :=
  decide (m (specTrialText emails suffixMarker k) ≤ availableWidth) ||
    (decide (k = 0) && allowSingleOverflow)

/-- Run the spec's greedy process from position `k` with `n` candidates
left: extend while candidates are accepted, stop at the first
rejection. Returns the position reached. -/
def greedyExtent (accept : ℕ → Bool) : ℕ → ℕ → ℕ
  | k, 0 => k
  | k, n + 1 => if accept k then greedyExtent accept (k + 1) n else k

/-- How many items the spec's greedy description keeps. -/
def specVisibleCount (m : String → ℤ) (availableWidth : ℤ) (suffixMarker : String)
    (allowSingleOverflow : Bool) (emails : List String) : ℕ :=
  greedyExtent (specAccept m availableWidth suffixMarker allowSingleOverflow emails)
    0 emails.length

/-! ## Helper lemmas -/

theorem le_greedyExtent (accept : ℕ → Bool) :
    ∀ n k, k ≤ greedyExtent accept k n := by
  intro n
  induction n with
  | zero => intro k; simp [greedyExtent]
  | succ n ih =>
      intro k
      by_cases h : accept k = true
      · calc k ≤ k + 1 := Nat.le_succ k
          _ ≤ greedyExtent accept (k + 1) n := ih (k + 1)
          _ = greedyExtent accept k (n + 1) := by simp [greedyExtent, h]
      · simp [greedyExtent, h]

theorem greedyExtent_le (accept : ℕ → Bool) :
    ∀ n k, greedyExtent accept k n ≤ k + n := by
  intro n
  induction n with
  | zero => intro k; simp [greedyExtent]
  | succ n ih =>
      intro k
      by_cases h : accept k = true
      · calc greedyExtent accept k (n + 1) = greedyExtent accept (k + 1) n := by
              simp [greedyExtent, h]
          _ ≤ (k + 1) + n := ih (k + 1)
          _ = k + (n + 1) := by omega
      · simp [greedyExtent, h]

theorem greedyExtent_accepts (accept : ℕ → Bool) :
    ∀ n k j, k ≤ j → j < greedyExtent accept k n → accept j = true := by
  intro n
  induction n with
  | zero =>
      intro k j hkj hj
      simp [greedyExtent] at hj
      omega
  | succ n ih =>
      intro k j hkj hj
      by_cases h : accept k = true
      · rcases Nat.eq_or_lt_of_le hkj with rfl | hlt
        · exact h
        · exact ih (k + 1) j hlt (by simpa [greedyExtent, h] using hj)
      · simp [greedyExtent, h] at hj
        omega

theorem greedyExtent_stop (accept : ℕ → Bool) :
    ∀ n k, greedyExtent accept k n < k + n →
      accept (greedyExtent accept k n) = false := by
  intro n
  induction n with
  | zero => intro k h; simp [greedyExtent] at h
  | succ n ih =>
      intro k h
      by_cases hk : accept k = true
      · rw [show greedyExtent accept k (n + 1) = greedyExtent accept (k + 1) n from
          by simp [greedyExtent, hk]] at h ⊢
        exact ih (k + 1) (by omega)
      · simp [greedyExtent, hk]

/-- Whatever the loop returns without raising extends its accumulator
by some leading segment of the untried items. -/
theorem fitLoopE_ok_extends (env : MeasureEnv) (font : String) (w : ℤ)
    (suf : String) (allow : Bool) (total : ℕ) :
    ∀ rest visible v,
      fitLoopE env font w suf allow total visible rest = .ok v →
      ∃ t r, v = visible ++ t ∧ t ++ r = rest := by
  intro rest
  induction rest with
  | nil =>
      intro visible v h
      simp only [fitLoopE] at h
      exact ⟨[], [], by simpa using h.symm, rfl⟩
  | cons e rest ih =>
      intro visible v h
      simp only [fitLoopE] at h
      split at h
      · exact absurd h (by simp)
      · split at h
        · obtain ⟨t, r, rfl, hr⟩ := ih (visible ++ [e]) v h
          exact ⟨e :: t, r, by simp, by simp [hr]⟩
        · exact ⟨[], e :: rest, by simpa using h.symm, rfl⟩

/-- With a pure measurement function the loop, run from position `k`,
returns exactly the greedy count the spec describes. -/
theorem fitLoopE_pure_take (m : String → ℤ) (font : String) (w : ℤ)
    (suf : String) (allow : Bool) (emails : List String) :
    ∀ n k, emails.length = k + n →
      fitLoopE (pureEnv font m) font w suf allow emails.length
          (emails.take k) (emails.drop k)
        = .ok (emails.take (greedyExtent (specAccept m w suf allow emails) k n)) := by
  intro n
  induction n with
  | zero =>
      intro k hk
      rw [List.drop_eq_nil_iff.mpr (by omega)]
      simp [fitLoopE, greedyExtent]
  | succ n ih =>
      intro k hk
      have hklt : k < emails.length := by omega
      rw [List.drop_eq_getElem_cons hklt]
      have htake : emails.take k ++ [emails[k]] = emails.take (k + 1) := by
        rw [List.take_succ, List.getElem?_eq_getElem hklt]
        rfl
      have hlen : (emails.take k).length = k := by
        simp [List.length_take]
        omega
      have hlen1 : (emails.take (k + 1)).length = k + 1 := by
        simp [List.length_take]
        omega
      have henv : ∀ text f, (pureEnv font m).measureTextWidth text f = Except.ok (m text) :=
        fun _ _ => rfl
      simp only [fitLoopE, henv, htake, hlen, hlen1]
      have htext :
          joinComma (emails.take (k + 1)) ++
              (if emails.length - (k + 1) > 0 then suf else "") =
            specTrialText emails suf k := rfl
      rw [htext]
      by_cases hacc : specAccept m w suf allow emails k = true
      · have hcond : m (specTrialText emails suf k) ≤ w ∨ (k = 0 ∧ allow = true) := by
          simpa [specAccept] using hacc
        rw [if_pos hcond, ih (k + 1) (by omega)]
        have : greedyExtent (specAccept m w suf allow emails) k (n + 1) =
            greedyExtent (specAccept m w suf allow emails) (k + 1) n := by
          simp [greedyExtent, hacc]
        rw [this]
      · have hcond : ¬(m (specTrialText emails suf k) ≤ w ∨ (k = 0 ∧ allow = true)) := by
          simpa [specAccept] using hacc
        rw [if_neg hcond]
        have : greedyExtent (specAccept m w suf allow emails) k (n + 1) = k := by
          simp [greedyExtent, hacc]
        rw [this]

/-- Raising is monotone in the width budget: a wider budget accepts
every candidate the narrow one accepted, so it reaches (at least) the
same measurement calls; if the narrow run raised, the wide one does
too. -/
theorem fitLoopE_error_mono (env : MeasureEnv) (font : String) (suf : String)
    (allow : Bool) (total : ℕ) {w w' : ℤ} (hw : w ≤ w') :
    ∀ rest visible,
      fitLoopE env font w suf allow total visible rest = .error () →
      fitLoopE env font w' suf allow total visible rest = .error () := by
  intro rest
  induction rest with
  | nil =>
      intro visible h
      simp [fitLoopE] at h
  | cons e rest ih =>
      intro visible h
      simp only [fitLoopE] at h ⊢
      split at h
      · next err heq =>
          exact h
      · next width heq =>
          split at h
          · next hcw =>
              have hcw' : width ≤ w' ∨ (visible.length = 0 ∧ allow = true) := by
                rcases hcw with hle | hesc
                · exact Or.inl (le_trans hle hw)
                · exact Or.inr hesc
              rw [if_pos hcw']
              exact ih _ h
          · exact absurd h (by simp)

/-- Returning normally is monotone in the width budget: the wide run
either raises (and falls back) or returns at least as many items. -/
theorem fitLoopE_ok_mono (env : MeasureEnv) (font : String) (suf : String)
    (allow : Bool) (total : ℕ) {w w' : ℤ} (hw : w ≤ w') :
    ∀ rest visible v,
      fitLoopE env font w suf allow total visible rest = .ok v →
      fitLoopE env font w' suf allow total visible rest = .error () ∨
        ∃ v', fitLoopE env font w' suf allow total visible rest = .ok v' ∧
          v.length ≤ v'.length := by
  intro rest
  induction rest with
  | nil =>
      intro visible v h
      obtain rfl : visible = v := by simpa [fitLoopE] using h
      exact Or.inr ⟨visible, by simp [fitLoopE], le_rfl⟩
  | cons e rest ih =>
      intro visible v h
      simp only [fitLoopE] at h ⊢
      split at h
      · next err heq =>
          exact absurd h (by simp)
      · next width heq =>
          split at h
          · next hcw =>
              have hcw' : width ≤ w' ∨ (visible.length = 0 ∧ allow = true) := by
                rcases hcw with hle | hesc
                · exact Or.inl (le_trans hle hw)
                · exact Or.inr hesc
              rw [if_pos hcw']
              exact ih _ _ h
          · next hcw =>
              obtain rfl : visible = v := by simpa using h
              by_cases hcw' : width ≤ w' ∨ (visible.length = 0 ∧ allow = true)
              · rw [if_pos hcw']
                cases hres : fitLoopE env font w' suf allow total (visible ++ [e]) rest with
                | error err =>
                    cases err
                    exact Or.inl rfl
                | ok v' =>
                    obtain ⟨t, r, rfl, hr⟩ := fitLoopE_ok_extends env font w' suf allow total
                      rest (visible ++ [e]) v' hres
                    exact Or.inr ⟨(visible ++ [e]) ++ t, rfl, by simp⟩
              · rw [if_neg hcw']
                exact Or.inr ⟨visible, rfl, le_rfl⟩

/-- A measurement pass that returns normally returns a leading segment
of the item list. -/
theorem measurementPass_ok_extends (env : MeasureEnv) (w : ℤ) (suf : String)
    (allow : Bool) (emails : List String) (v : List String)
    (h : measurementPass env w suf allow emails = .ok v) :
    ∃ r, v ++ r = emails := by
  unfold measurementPass at h
  split at h
  · exact absurd h (by simp)
  · obtain ⟨t, r, rfl, hr⟩ :=
      fitLoopE_ok_extends env _ w suf allow emails.length emails [] v h
    exact ⟨r, by simpa using hr⟩

/-- Lift of `fitLoopE_error_mono` through the font lookup. -/
theorem measurementPass_error_mono (env : MeasureEnv) (suf : String) (allow : Bool)
    (emails : List String) {w w' : ℤ} (hw : w ≤ w')
    (h : measurementPass env w suf allow emails = .error ()) :
    measurementPass env w' suf allow emails = .error () := by
  unfold measurementPass at h ⊢
  revert h
  cases hfont : env.getComputedFont with
  | error err => intro h; cases err; rfl
  | ok font => intro h; exact fitLoopE_error_mono env font suf allow _ hw _ [] h

/-- Lift of `fitLoopE_ok_mono` through the font lookup. -/
theorem measurementPass_ok_mono (env : MeasureEnv) (suf : String) (allow : Bool)
    (emails : List String) {w w' : ℤ} (hw : w ≤ w') (v : List String)
    (h : measurementPass env w suf allow emails = .ok v) :
    measurementPass env w' suf allow emails = .error () ∨
      ∃ v', measurementPass env w' suf allow emails = .ok v' ∧
        v.length ≤ v'.length := by
  unfold measurementPass at h ⊢
  revert h
  cases hfont : env.getComputedFont with
  | error err => intro h; exact absurd h (by simp)
  | ok font => intro h; exact fitLoopE_ok_mono env font suf allow _ hw _ [] v h

/-- `computeVisibleRecipients` marks every published state ready. -/
theorem computeVisibleRecipients_isReady (emails : List String) (attached : Bool)
    (clientWidth : ℤ) (cfg : RecipientsCalculationConfig) (env : MeasureEnv) :
    (computeVisibleRecipients emails attached clientWidth cfg env).isReady = true := by
  simp only [computeVisibleRecipients]
  split
  · rfl
  · split
    · rfl
    · split <;> rfl

/-! ## The claims -/

/-- C2: for every raw input string and configuration, the emitted
result satisfies `visibleList.length + hiddenCount = validItemCount`,
the number of items surviving validation, across the degenerate paths,
the fitting path and the exception-fallback path. -/
theorem visible_plus_hidden_eq_valid_count (recipients : String) (attached : Bool)
    (clientWidth : ℤ) (cfg : RecipientsCalculationConfig) (env : MeasureEnv) :
    (useRecipientsCalculation recipients attached clientWidth cfg env).visibleList.length +
      (useRecipientsCalculation recipients attached clientWidth cfg env).hiddenCount =
      (parseEmails recipients).length := by
  simp only [useRecipientsCalculation, computeVisibleRecipients]
  split
  · simp
  · split
    · simp
    · split
      · next visible hok =>
          obtain ⟨r, hr⟩ := measurementPass_ok_extends env _ _ _ _ visible hok
          have : visible.length + r.length = (parseEmails recipients).length := by
            rw [← hr]; simp
          simp
          omega
      · simp

/-- C3: the emitted `visibleList` is always a contiguous initial
segment of the validated, ordered item list: some tail `t` completes
it to `parseEmails recipients`, so nothing is skipped or reordered. -/
theorem visible_is_initial_segment (recipients : String) (attached : Bool)
    (clientWidth : ℤ) (cfg : RecipientsCalculationConfig) (env : MeasureEnv) :
    ∃ t, (useRecipientsCalculation recipients attached clientWidth cfg env).visibleList ++ t =
      parseEmails recipients := by
  simp only [useRecipientsCalculation, computeVisibleRecipients]
  split
  · exact ⟨parseEmails recipients, by simp⟩
  · split
    · exact ⟨parseEmails recipients, by simp⟩
    · split
      · next visible hok =>
          obtain ⟨r, hr⟩ := measurementPass_ok_extends env _ _ _ _ visible hok
          exact ⟨r, hr⟩
      · exact ⟨[], by simp⟩

/-- C10: an explicit `maxWidth` override of `0` is falsy, so the
effective width falls back to the container's measured width: the
whole evaluation behaves exactly as if no override had been given. -/
theorem maxWidth_zero_ignored (recipients : String) (attached : Bool)
    (clientWidth : ℤ) (suffixMarker : String) (allow : Bool) (minW : ℤ)
    (env : MeasureEnv) :
    useRecipientsCalculation recipients attached clientWidth
        ⟨some 0, suffixMarker, allow, minW⟩ env =
      useRecipientsCalculation recipients attached clientWidth
        ⟨none, suffixMarker, allow, minW⟩ env := by
  simp [useRecipientsCalculation, computeVisibleRecipients, effectiveWidth]

/-- C8: when the container is attached, items are present and the
width passes the minimum check, a raising measurement pass (font
lookup or any width measurement) never propagates: the engine emits
all items visible, `hiddenCount = 0`, `isReady = true`. -/
theorem measurement_failure_fails_open (emails : List String) (clientWidth : ℤ)
    (cfg : RecipientsCalculationConfig) (env : MeasureEnv)
    (hne : emails ≠ [])
    (hwide : ¬ effectiveWidth cfg.maxWidth clientWidth < cfg.minWidth)
    (herr : measurementPass env (effectiveWidth cfg.maxWidth clientWidth)
        cfg.ellipsisSuffix cfg.allowOverflow emails = .error ()) :
    computeVisibleRecipients emails true clientWidth cfg env = ⟨emails, 0, true⟩ := by
  simp only [computeVisibleRecipients]
  rw [if_neg (by simp [hne]), if_neg hwide, herr]

theorem measurement_failure_fails_open_witness :
    computeVisibleRecipients ["a@b.co"] true 60 ⟨none, ",...", true, 50⟩
        ⟨.error (), fun _ _ => .ok 0⟩ = ⟨["a@b.co"], 0, true⟩ :=
  measurement_failure_fails_open ["a@b.co"] 60 ⟨none, ",...", true, 50⟩
    ⟨.error (), fun _ _ => .ok 0⟩ (by simp) (by decide) rfl

/-- C1: with items present, the container attached and the width
passing the minimum check, the fitting pass run with a pure
measurement function builds exactly the greedy visible list the spec
describes: the first `specVisibleCount` items, where every step below
the count passed the spec's acceptance test (trial prefix joined with
`", "` plus the marker when items remain, measured against the budget,
with the single-overflow escape for an empty visible list) and, when
the count stops short of the whole list, the very next candidate
failed it — so no later item is ever considered. -/
theorem greedy_fit_matches_spec (m : String → ℤ) (font : String) (clientWidth : ℤ)
    (cfg : RecipientsCalculationConfig) (emails : List String)
    (hne : emails ≠ [])
    (hwide : ¬ effectiveWidth cfg.maxWidth clientWidth < cfg.minWidth) :
    (computeVisibleRecipients emails true clientWidth cfg (pureEnv font m)).visibleList =
        emails.take (specVisibleCount m (effectiveWidth cfg.maxWidth clientWidth)
          cfg.ellipsisSuffix cfg.allowOverflow emails) ∧
      (∀ k, k < specVisibleCount m (effectiveWidth cfg.maxWidth clientWidth)
            cfg.ellipsisSuffix cfg.allowOverflow emails →
        specAccept m (effectiveWidth cfg.maxWidth clientWidth) cfg.ellipsisSuffix
          cfg.allowOverflow emails k = true) ∧
      (specVisibleCount m (effectiveWidth cfg.maxWidth clientWidth)
            cfg.ellipsisSuffix cfg.allowOverflow emails < emails.length →
        specAccept m (effectiveWidth cfg.maxWidth clientWidth) cfg.ellipsisSuffix
          cfg.allowOverflow emails
          (specVisibleCount m (effectiveWidth cfg.maxWidth clientWidth)
            cfg.ellipsisSuffix cfg.allowOverflow emails) = false) := by
  refine ⟨?_, ?_, ?_⟩
  · have hpass : measurementPass (pureEnv font m)
        (effectiveWidth cfg.maxWidth clientWidth) cfg.ellipsisSuffix
        cfg.allowOverflow emails =
        .ok (emails.take (specVisibleCount m (effectiveWidth cfg.maxWidth clientWidth)
          cfg.ellipsisSuffix cfg.allowOverflow emails)) := by
      have h := fitLoopE_pure_take m font (effectiveWidth cfg.maxWidth clientWidth)
        cfg.ellipsisSuffix cfg.allowOverflow emails emails.length 0 (by omega)
      simpa [measurementPass, pureEnv, specVisibleCount] using h
    simp only [computeVisibleRecipients]
    rw [if_neg (by simp [hne]), if_neg hwide, hpass]
  · intro k hk
    exact greedyExtent_accepts _ _ _ _ (Nat.zero_le k) hk
  · intro hlt
    have h := greedyExtent_stop
      (specAccept m (effectiveWidth cfg.maxWidth clientWidth) cfg.ellipsisSuffix
        cfg.allowOverflow emails) emails.length 0 (by simpa using hlt)
    simpa [specVisibleCount] using h

theorem greedy_fit_matches_spec_witness :
    (computeVisibleRecipients ["a@x.com", "bb@y.com", "ccc@z.com"] true 100
        ⟨none, ",...", true, 50⟩
        (pureEnv "font" (fun s => (4 * s.length : ℤ)))).visibleList =
      ["a@x.com", "bb@y.com", "ccc@z.com"].take
        (specVisibleCount (fun s => (4 * s.length : ℤ)) (effectiveWidth none 100) ",..."
          true ["a@x.com", "bb@y.com", "ccc@z.com"]) :=
  (greedy_fit_matches_spec (fun s => (4 * s.length : ℤ)) "font" 100
    ⟨none, ",...", true, 50⟩ ["a@x.com", "bb@y.com", "ccc@z.com"]
    (by simp) (by decide)).1

/-- C4 counterexample: in the below-minimum degenerate state with one
valid item, the emitted `displayText` is the ellipsis suffix `",..."`,
not the empty string the claim demands. -/
theorem degenerate_displayText_counterexample :
    (useRecipientsCalculation "a@b.co" true 10 ⟨none, ",...", true, 50⟩
        (pureEnv "font" (fun _ => 0))).hiddenCount = 1 ∧
      (useRecipientsCalculation "a@b.co" true 10 ⟨none, ",...", true, 50⟩
        (pureEnv "font" (fun _ => 0))).displayText = ",..." ∧
      (",..." : String) ≠ "" := by
  decide

/-- C4 amended: in the degenerate states (no valid items, container
not attached, or width below minimum) the engine emits
`visibleItems = []`, `hiddenCount = ItemList.length`, `ready = true`,
and `displayText` equal to the empty string when the item list is
empty but equal to the suffix marker when `hiddenCount` is positive. -/
theorem degenerate_emits_empty_visible (recipients : String) (attached : Bool)
    (clientWidth : ℤ) (cfg : RecipientsCalculationConfig) (env : MeasureEnv)
    (h : parseEmails recipients = [] ∨ attached = false ∨
      effectiveWidth cfg.maxWidth clientWidth < cfg.minWidth) :
    useRecipientsCalculation recipients attached clientWidth cfg env =
      ⟨[], (parseEmails recipients).length,
        if (parseEmails recipients).length = 0 then "" else cfg.ellipsisSuffix,
        true⟩ := by
  have hcv : computeVisibleRecipients (parseEmails recipients) attached clientWidth
      cfg env = ⟨[], (parseEmails recipients).length, true⟩ := by
    rcases h with hemp | hatt | hwid
    · simp [computeVisibleRecipients, hemp]
    · simp [computeVisibleRecipients, hatt]
    · cases attached with
      | false => simp [computeVisibleRecipients]
      | true =>
          by_cases hemp : parseEmails recipients = []
          · simp [computeVisibleRecipients, hemp]
          · simp only [computeVisibleRecipients]
            rw [if_neg (by simp [hemp]), if_pos hwid]
  have hjoin : joinComma ([] : List String) = "" := rfl
  simp only [useRecipientsCalculation, hcv]
  rcases Nat.eq_zero_or_pos (parseEmails recipients).length with hz | hp
  · simp [displayText, hjoin, hz]
  · have hnz : (parseEmails recipients).length ≠ 0 := by omega
    simp [displayText, hjoin, hp, hnz]

theorem degenerate_emits_empty_visible_witness :
    useRecipientsCalculation "a@b.co" true 10 ⟨none, ",...", true, 50⟩
        (pureEnv "font" (fun _ => 0)) =
      ⟨[], (parseEmails "a@b.co").length,
        if (parseEmails "a@b.co").length = 0 then "" else ",...", true⟩ :=
  degenerate_emits_empty_visible "a@b.co" true 10 ⟨none, ",...", true, 50⟩
    (pureEnv "font" (fun _ => 0)) (Or.inr (Or.inr (by decide)))

/-- C5 counterexample: with suffix marker `"z"` and the single fitting
item `a@z.com`, the emitted result has `hiddenCount = 0` yet its
`displayText` contains the marker (it splits around a `"z"`), refuting
the claim's "never otherwise" over all marker strings. -/
theorem displayText_marker_containment_counterexample :
    (useRecipientsCalculation "a@z.com" true 100 ⟨none, "z", true, 50⟩
        (pureEnv "font" (fun _ => 0))).isReady = true ∧
      (useRecipientsCalculation "a@z.com" true 100 ⟨none, "z", true, 50⟩
        (pureEnv "font" (fun _ => 0))).hiddenCount = 0 ∧
      (useRecipientsCalculation "a@z.com" true 100 ⟨none, "z", true, 50⟩
        (pureEnv "font" (fun _ => 0))).displayText = "a@z.com" ∧
      ("a@z.com" : String).data = ("a@" : String).data ++ ("z" : String).data ++
        (".com" : String).data := by
  decide

/-- C5 amended: for every ready result, `displayText` is exactly the
visible items joined with `", "` with the suffix marker appended when
`hiddenCount > 0` and nothing appended otherwise; the marker therefore
appears whenever `hiddenCount > 0`, but "contains the marker iff
hidden" cannot be quantified over all marker strings. -/
theorem displayText_join_characterization (recipients : String) (attached : Bool)
    (clientWidth : ℤ) (cfg : RecipientsCalculationConfig) (env : MeasureEnv) :
    (useRecipientsCalculation recipients attached clientWidth cfg env).displayText =
      joinComma (useRecipientsCalculation recipients attached clientWidth cfg
          env).visibleList ++
        (if 0 < (useRecipientsCalculation recipients attached clientWidth cfg
            env).hiddenCount then cfg.ellipsisSuffix else "") := by
  have hready := computeVisibleRecipients_isReady (parseEmails recipients) attached
    clientWidth cfg env
  simp only [useRecipientsCalculation, displayText, hready]
  split
  · next h => exact absurd h (by simp)
  · split <;> simp

/-- C6: with the item list, suffix marker, overflow flag, minimum
width and measurement environment held fixed, increasing the available
width never decreases the number of visible items — including through
the minimum-width check and the exception fallback. -/
theorem visible_count_monotone_in_width (recipients : String) (attached : Bool)
    (suffixMarker : String) (allow : Bool) (minW : ℤ) (env : MeasureEnv)
    (w w' : ℤ) (hw : w ≤ w') :
    (useRecipientsCalculation recipients attached w
        ⟨none, suffixMarker, allow, minW⟩ env).visibleList.length ≤
      (useRecipientsCalculation recipients attached w'
        ⟨none, suffixMarker, allow, minW⟩ env).visibleList.length := by
  simp only [useRecipientsCalculation]
  by_cases hdeg : ¬attached = true ∨ parseEmails recipients = []
  · simp only [computeVisibleRecipients]
    rw [if_pos hdeg, if_pos hdeg]
  · simp only [computeVisibleRecipients]
    rw [if_neg hdeg, if_neg hdeg]
    have heff : ∀ x : ℤ, effectiveWidth none x = x := fun _ => rfl
    simp only [heff]
    by_cases hw'min : w' < minW
    · rw [if_pos (lt_of_le_of_lt hw hw'min), if_pos hw'min]
    · rw [if_neg hw'min]
      by_cases hwmin : w < minW
      · rw [if_pos hwmin]
        simp
      · rw [if_neg hwmin]
        cases hres : measurementPass env w suffixMarker allow (parseEmails recipients) with
        | error err =>
            cases err
            rw [measurementPass_error_mono env suffixMarker allow _ hw hres]
        | ok v =>
            rcases measurementPass_ok_mono env suffixMarker allow _ hw v hres with
              herr | ⟨v', hok, hlen⟩
            · rw [herr]
              obtain ⟨r, hr⟩ :=
                measurementPass_ok_extends env w suffixMarker allow _ v hres
              have hsum : v.length + r.length = (parseEmails recipients).length := by
                rw [← hr]
                simp
              simp
              omega
            · rw [hok]
              simpa using hlen

theorem visible_count_monotone_in_width_witness :
    (useRecipientsCalculation "a@x.com, bb@y.com" true 60
        ⟨none, ",...", true, 50⟩
        (pureEnv "font" (fun s => (4 * s.length : ℤ)))).visibleList.length ≤
      (useRecipientsCalculation "a@x.com, bb@y.com" true 100
        ⟨none, ",...", true, 50⟩
        (pureEnv "font" (fun s => (4 * s.length : ℤ)))).visibleList.length :=
  visible_count_monotone_in_width "a@x.com, bb@y.com" true ",..." true 50
    (pureEnv "font" (fun s => (4 * s.length : ℤ))) 60 100 (by decide)

/-- C7: with `allowOverflow = true`, the container attached and the
width at least the minimum, a pure measurement pass always accepts the
first item, so the visible list is never empty; in particular with
exactly one valid item whose measured width exceeds the budget the
result is that item alone with `hiddenCount = 0`. -/
theorem single_overflow_escape (m : String → ℤ) (font : String)
    (clientWidth minW : ℤ) (suffixMarker : String) (emails : List String)
    (hne : emails ≠ []) (hwide : ¬ clientWidth < minW) :
    (computeVisibleRecipients emails true clientWidth
        ⟨none, suffixMarker, true, minW⟩ (pureEnv font m)).visibleList ≠ [] ∧
      ∀ e, emails = [e] → clientWidth < m e →
        computeVisibleRecipients emails true clientWidth
            ⟨none, suffixMarker, true, minW⟩ (pureEnv font m) = ⟨[e], 0, true⟩ := by
  have heff : effectiveWidth none clientWidth = clientWidth := rfl
  have hpass : measurementPass (pureEnv font m) clientWidth suffixMarker true emails =
      .ok (emails.take (greedyExtent
        (specAccept m clientWidth suffixMarker true emails) 0 emails.length)) := by
    simpa [measurementPass, pureEnv] using
      fitLoopE_pure_take m font clientWidth suffixMarker true emails
        emails.length 0 (by omega)
  have hacc0 : specAccept m clientWidth suffixMarker true emails 0 = true := by
    simp [specAccept]
  have hcv : computeVisibleRecipients emails true clientWidth
      ⟨none, suffixMarker, true, minW⟩ (pureEnv font m) =
      ⟨emails.take (greedyExtent (specAccept m clientWidth suffixMarker true emails)
          0 emails.length),
        emails.length - (emails.take (greedyExtent
          (specAccept m clientWidth suffixMarker true emails) 0 emails.length)).length,
        true⟩ := by
    simp only [computeVisibleRecipients]
    rw [if_neg (by simp [hne])]
    simp only [heff]
    rw [if_neg hwide, hpass]
  constructor
  · rw [hcv]
    obtain ⟨x, xs, rfl⟩ := List.exists_cons_of_ne_nil hne
    have hstep : greedyExtent (specAccept m clientWidth suffixMarker true (x :: xs))
        0 (xs.length + 1) =
        greedyExtent (specAccept m clientWidth suffixMarker true (x :: xs)) 1 xs.length := by
      simp [greedyExtent, hacc0]
    have h1 : 1 ≤ greedyExtent (specAccept m clientWidth suffixMarker true (x :: xs))
        0 (x :: xs).length := by
      simp only [List.length_cons]
      rw [hstep]
      exact le_greedyExtent _ _ _
    simp only [List.length_cons] at h1 ⊢
    simp [List.take_eq_nil_iff]
    omega
  · intro e he hov
    subst he
    rw [hcv]
    have hone : greedyExtent (specAccept m clientWidth suffixMarker true [e]) 0 1 = 1 := by
      simp [greedyExtent, hacc0]
    simp [hone]

theorem single_overflow_escape_witness :
    (computeVisibleRecipients ["a@b.co"] true 60 ⟨none, ",...", true, 50⟩
        (pureEnv "font" (fun _ => 1000))).visibleList ≠ [] ∧
      computeVisibleRecipients ["a@b.co"] true 60 ⟨none, ",...", true, 50⟩
        (pureEnv "font" (fun _ => 1000)) = ⟨["a@b.co"], 0, true⟩ :=
  ⟨(single_overflow_escape (fun _ => 1000) "font" 60 50 ",..." ["a@b.co"]
      (by simp) (by decide)).1,
    (single_overflow_escape (fun _ => 1000) "font" 60 50 ",..." ["a@b.co"]
      (by simp) (by decide)).2 "a@b.co" rfl (by decide)⟩

/-! ## The spec's description of a valid item -/

/-- The spec's `local@domain.tld` shape, stated declaratively: a
non-empty local part, an at sign, and a domain, all free of whitespace
and further at signs, with a dot inside the domain that has at least
one character on each side. -/
def specEmailShape (cs : List Char) : Prop :=
  ∃ l d, cs = l ++ '@' :: d ∧ l ≠ [] ∧
    (∀ c ∈ l, c.isWhitespace = false ∧ c ≠ '@') ∧
    (∀ c ∈ d, c.isWhitespace = false ∧ c ≠ '@') ∧
    ∃ d₁ d₂, d = d₁ ++ '.' :: d₂ ∧ d₁ ≠ [] ∧ d₂ ≠ []

theorem okChar_iff (c : Char) :
    okChar c = true ↔ c.isWhitespace = false ∧ c ≠ '@' := by
  simp [okChar]

theorem hasInnerDot_iff (d : List Char) :
    hasInnerDot d = true ↔ ∃ d₁ d₂, d = d₁ ++ '.' :: d₂ ∧ d₁ ≠ [] ∧ d₂ ≠ [] := by
  constructor
  · intro h
    have hmem : '.' ∈ (d.drop 1).dropLast := by
      simpa [hasInnerDot, List.contains] using h
    rcases d with _ | ⟨a, t⟩
    · simp at hmem
    · simp only [List.drop_succ_cons, List.drop_zero] at hmem
      rcases List.eq_nil_or_concat t with rfl | ⟨t', z, rfl⟩
      · simp at hmem
      · simp only [List.concat_eq_append, List.dropLast_concat] at hmem
        obtain ⟨s, u, rfl⟩ := List.append_of_mem hmem
        exact ⟨a :: s, u ++ [z], by simp, by simp, by simp⟩
  · rintro ⟨d₁, d₂, rfl, h1, h2⟩
    rcases List.eq_nil_or_concat d₂ with rfl | ⟨d₂', z, rfl⟩
    · exact absurd rfl h2
    · rcases d₁ with _ | ⟨c, d₁'⟩
      · exact absurd rfl h1
      · have hshape : (c :: d₁') ++ '.' :: (d₂'.concat z) =
            c :: ((d₁' ++ '.' :: d₂') ++ [z]) := by
          simp
        rw [hshape]
        simp only [hasInnerDot, List.drop_succ_cons, List.drop_zero,
          List.dropLast_concat]
        exact List.elem_iff.mpr (by simp)

/-- The matcher accepts exactly the strings of the declarative shape:
the class excludes `@`, so the split at the first at sign is forced. -/
theorem matchEmail_iff (cs : List Char) :
    matchEmail cs = true ↔ specEmailShape cs := by
  constructor
  · intro h
    unfold matchEmail at h
    split at h
    · next domain heq =>
        simp only [Bool.and_eq_true, List.all_eq_true] at h
        obtain ⟨⟨hne, hdall⟩, hdot⟩ := h
        refine ⟨cs.takeWhile okChar, domain, ?_, ?_, ?_, ?_, ?_⟩
        · conv_lhs => rw [← List.takeWhile_append_dropWhile okChar cs]
          rw [heq]
        · simpa [List.isEmpty_iff] using hne
        · intro c hc
          exact (okChar_iff c).mp (List.mem_takeWhile_imp hc)
        · intro c hc
          exact (okChar_iff c).mp (hdall c hc)
        · exact (hasInnerDot_iff domain).mp hdot
    · exact absurd h (by simp)
  · rintro ⟨l, d, rfl, hl, hlok, hdok, hdot⟩
    have hsplit : ∀ ls : List Char, (∀ c ∈ ls, okChar c = true) →
        (ls ++ '@' :: d).takeWhile okChar = ls ∧
        (ls ++ '@' :: d).dropWhile okChar = '@' :: d := by
      intro ls hls
      induction ls with
      | nil => simp [List.takeWhile, List.dropWhile, okChar]
      | cons c ls ih =>
          have hc : okChar c = true := hls c (by simp)
          have hrest : ∀ x ∈ ls, okChar x = true := fun x hx => hls x (by simp [hx])
          obtain ⟨ht, hd⟩ := ih hrest
          simp [List.takeWhile_cons, List.dropWhile_cons, hc, ht, hd]
    have hlok' : ∀ c ∈ l, okChar c = true := fun c hc =>
      (okChar_iff c).mpr (hlok c hc)
    obtain ⟨ht, hd⟩ := hsplit l hlok'
    unfold matchEmail
    rw [hd]
    simp only [ht, Bool.and_eq_true, List.all_eq_true]
    refine ⟨⟨?_, ?_⟩, ?_⟩
    · simpa [List.isEmpty_iff] using hl
    · intro c hc
      exact (okChar_iff c).mpr (hdok c hc)
    · exact (hasInnerDot_iff d).mpr hdot

/-- C9: parsing splits on commas, trims each token, and keeps exactly
the tokens that are non-empty, at most 254 characters and of the
declarative `local@domain.tld` shape, preserving order; concretely,
the raw input `"notanemail, ok@z.com"` yields exactly the single item
`ok@z.com`. -/
theorem parse_keeps_valid_shaped_tokens :
    parseEmails "notanemail, ok@z.com" = ["ok@z.com"] ∧
      (∀ s : String, validEmail s = true ↔
        s.length > 0 ∧ s.length ≤ 254 ∧ specEmailShape s.data) ∧
      ∀ recipients : String, recipients ≠ "" →
        parseEmails recipients =
          ((splitOnComma recipients.data).map
            (fun t => String.mk (jsTrim t))).filter validEmail := by
  refine ⟨by decide, ?_, ?_⟩
  · intro s
    simp only [validEmail, Bool.and_eq_true, decide_eq_true_eq]
    constructor
    · rintro ⟨⟨h1, h2⟩, h3⟩
      exact ⟨h1, h2, (matchEmail_iff s.data).mp h3⟩
    · rintro ⟨h1, h2, h3⟩
      exact ⟨⟨h1, h2⟩, (matchEmail_iff s.data).mpr h3⟩
  · intro recipients hne
    simp [parseEmails, hne]

theorem parse_keeps_valid_shaped_tokens_witness :
    validEmail "ok@z.com" = true ∧ ("notanemail, ok@z.com" : String) ≠ "" ∧
      parseEmails "notanemail, ok@z.com" =
        ((splitOnComma ("notanemail, ok@z.com" : String).data).map
          (fun t => String.mk (jsTrim t))).filter validEmail :=
  ⟨by decide, by decide,
    parse_keeps_valid_shaped_tokens.2.2 "notanemail, ok@z.com" (by decide)⟩

end RecipientsFit
